import Mathlib

/-!
Verification of the crypto_trading_v2 custodial-ledger core.

The repository declares its data model (GORM structs in
`internal/models/models.go` and `cmd/server/main.go`) and the service
interfaces (`DepositService`, `WithdrawalService`, ...) but ships no
implementation of the lifecycle operations; where an operation is needed it
is modelled from the specification, with a doc comment saying so.  Decimal
amounts (`decimal(20,8)` / `decimal(28,18)`) are modelled as fixed-point
integers in the smallest unit: balances as `Int` (so that non-negativity is
a real property), requested amounts as `Nat`.
-/

namespace CryptoTrading

/-! ## Transaction status constants (models.go) -/

/-- Status constant `StatusPending` from models.go. -/
def StatusPending : String := "pending"

/-- Status constant `StatusBroadcasted` from models.go. -/
def StatusBroadcasted : String := "broadcasted"

/-- Status constant `StatusConfirmed` from models.go. -/
def StatusConfirmed : String := "confirmed"

/-- Status constant `StatusFailed` from models.go. -/
def StatusFailed : String := "failed"

/-- Status constant `StatusCredited` from models.go. -/
def StatusCredited : String := "credited"

/-- The withdrawal status values documented on the `CryptoWithdrawal.Status`
field in cmd/server/main.go: `// pending, broadcasting, confirmed, failed`. -/
def cryptoWithdrawalDocumentedStatuses : List String :=
  ["pending", "broadcasting", "confirmed", "failed"]

/-! ## Kafka health check (second `api.Server` in models.go) -/

/-- Embeds `checkKafkaStatus`: it iterates over the configured brokers, and
for each one builds a reader, reads `reader.Stats()` and tests
`stats.Topic != "" || true`, returning "connected" when the test passes;
only after the loop exhausts all brokers does it return "disconnected".
`statsTopic` abstracts the externally observed `stats.Topic` value for a
broker. -/
def checkKafkaStatus (statsTopic : String → String) : List String → String
  | [] => "disconnected"
  | broker :: rest =>
    if (statsTopic broker != "") || true then "connected"
    else checkKafkaStatus statsTopic rest

/-- Embeds the Kafka broker configuration in `NewServer`: the KAFKA_BROKERS
environment value is split on ",", and the result is replaced by
`["localhost:9093"]` when it is empty or its first element is the empty
string. -/
def newServerKafkaBrokers (kafkaBrokersEnv : String) : List String :=
  if (kafkaBrokersEnv.splitOn ",").length == 0 ||
      (kafkaBrokersEnv.splitOn ",").headD "" == "" then
    ["localhost:9093"]
  else
    kafkaBrokersEnv.splitOn ","

/-! ## JSON serialization of `CryptoAddress` (cmd/server/main.go) -/

/-- A JSON value, the target of the modelled `encoding/json` marshaller. -/
inductive Jval where
  | null : Jval
  | str : String → Jval
  | num : Nat → Jval
  | bool : Bool → Jval
  | arr : List Jval → Jval
  | obj : List (String × Jval) → Jval

/-- The embedded `gorm.Model` (fields `ID`, `CreatedAt`, `UpdatedAt`,
`DeletedAt`, all without json tags, hence serialized under their Go names);
times are modelled as their rendered strings. -/
structure GormModel where
  id : Nat
  createdAt : String
  updatedAt : String
  deletedAt : Option String

/-- The `CryptoAddress` struct of cmd/server/main.go.  The relationship
fields (`User`, `Deposits`, `Withdrawals`, `Transactions`) are kept abstract
in the element types `U D W T`; their own marshalling is passed as an
argument to `marshalCryptoAddress`, which is fully general for the
serialization claims about this struct. -/
structure CryptoAddress (U D W T : Type) where
  model : GormModel
  userId : Nat
  address : String
  publicKey : String
  privateKey : String
  network : String
  cryptoType : String
  label : String
  isActive : Bool
  balance : String
  lastSyncAt : Option String
  user : U
  deposits : List D
  withdrawals : List W
  transactions : List T

/-- Replace only the `PrivateKey` field of a `CryptoAddress`.  Two values
differ only in `PrivateKey` exactly when they are `a.withPrivateKey k₁` and
`a.withPrivateKey k₂` for a common `a`. -/
def CryptoAddress.withPrivateKey {U D W T : Type}
    (a : CryptoAddress U D W T) (k : String) : CryptoAddress U D W T :=
  { a with privateKey := k }

/-- Marshalling of the embedded `gorm.Model` fields. -/
def marshalGormModel (m : GormModel) : List (String × Jval) :=
  [("ID", .num m.id), ("CreatedAt", .str m.createdAt),
   ("UpdatedAt", .str m.updatedAt),
   ("DeletedAt", match m.deletedAt with | none => .null | some t => .str t)]

/-- Embeds Go `json.Marshal` applied to `CryptoAddress` with its struct tags:
each field is emitted under its `json:"..."` name, `omitempty` string and
pointer fields are dropped when zero, slice fields are dropped when empty,
and `PrivateKey`, tagged `json:"-"`, is never emitted. -/
def marshalCryptoAddress {U D W T : Type}
    (encU : U → Jval) (encD : D → Jval) (encW : W → Jval) (encT : T → Jval)
    (a : CryptoAddress U D W T) : Jval :=
  .obj (marshalGormModel a.model ++
    [("user_id", .num a.userId), ("address", .str a.address)] ++
    (if a.publicKey == "" then [] else [("public_key", .str a.publicKey)]) ++
    [("network", .str a.network), ("crypto_type", .str a.cryptoType)] ++
    (if a.label == "" then [] else [("label", .str a.label)]) ++
    [("is_active", .bool a.isActive), ("balance", .str a.balance)] ++
    (match a.lastSyncAt with | none => [] | some t => [("last_sync_at", .str t)]) ++
    [("user", encU a.user)] ++
    (if a.deposits.isEmpty then [] else [("deposits", .arr (a.deposits.map encD))]) ++
    (if a.withdrawals.isEmpty then []
     else [("withdrawals", .arr (a.withdrawals.map encW))]) ++
    (if a.transactions.isEmpty then []
     else [("transactions", .arr (a.transactions.map encT))]))

/-! ## Error kinds -/

/-- Modelled from the spec: the error kinds of §7.  The source declares only
the `CryptoError` struct and a partial list of error-code strings in
models.go (it lacks, e.g., `ILLEGAL_TRANSITION`), and no operation
implementations, so the kinds follow §7. -/
inductive CryptoErr where
  | duplicateAddress
  | duplicateUTXO
  | insufficientFunds
  | insufficientUTXOs
  | invalidAddress
  | alreadyBroadcast
  | illegalTransition
  | reorgAfterCredit
  | notFound
  | storageConflict
deriving DecidableEq, Repr

/-! ## Accounts (models.go `Account`) -/

/-- The `Account` record of models.go restricted to its balance fields
(`Balance`, `AvailableBalance`, `LockedBalance`, each `decimal(20,8)`),
modelled as fixed-point integers. -/
structure Account where
  balance : Int
  availableBalance : Int
  lockedBalance : Int
deriving DecidableEq, Repr

/-- The balance invariant of §3/§8: `total = available + locked` and none of
the three is negative. -/
def Account.Inv (a : Account) : Prop :=
  a.balance = a.availableBalance + a.lockedBalance ∧
  0 ≤ a.balance ∧ 0 ≤ a.availableBalance ∧ 0 ≤ a.lockedBalance

instance (a : Account) : Decidable a.Inv := by
  unfold Account.Inv
  infer_instance

/-- Modelled from the spec: the credit mutation of §4.3/§5 — the only point
at which a balance increases — adds the amount to both total and available.
No `DepositService.CreditDeposit` implementation exists in the source. -/
def Account.credit (a : Account) (amt : Nat) : Account :=
  { a with balance := a.balance + amt,
           availableBalance := a.availableBalance + amt }

/-- Modelled from the spec: the lock mutation of §4.4 `create` — moves the
amount from available to locked, failing with `InsufficientFunds` when the
available balance does not cover it.  No `WithdrawalService.CreateWithdrawal`
implementation exists in the source. -/
def Account.lockFunds (a : Account) (amt : Nat) : Except CryptoErr Account :=
  if (amt : Int) ≤ a.availableBalance then
    .ok { a with availableBalance := a.availableBalance - amt,
                 lockedBalance := a.lockedBalance + amt }
  else
    .error .insufficientFunds

/-- Modelled from the spec: the unlock mutation of §4.4 `fail`/`cancel` —
restores the amount from locked to available; unlocking more than is locked
would be an illegal transition. -/
def Account.unlockFunds (a : Account) (amt : Nat) : Except CryptoErr Account :=
  if (amt : Int) ≤ a.lockedBalance then
    .ok { a with availableBalance := a.availableBalance + amt,
                 lockedBalance := a.lockedBalance - amt }
  else
    .error .illegalTransition

/-- Modelled from the spec: the debit mutation of §4.4 `markBroadcast` —
consumes the locked amount (decrementing total), never touching available. -/
def Account.debitLocked (a : Account) (amt : Nat) : Except CryptoErr Account :=
  if (amt : Int) ≤ a.lockedBalance then
    .ok { a with balance := a.balance - amt,
                 lockedBalance := a.lockedBalance - amt }
  else
    .error .illegalTransition

/-- The four atomic account mutations of §5: credit, lock, unlock, debit. -/
inductive AccountOp where
  | credit (amt : Nat)
  | lock (amt : Nat)
  | unlock (amt : Nat)
  | debit (amt : Nat)

/-- Apply one atomic account mutation. -/
def Account.applyOp (a : Account) : AccountOp → Except CryptoErr Account
  | .credit amt => .ok (a.credit amt)
  | .lock amt => a.lockFunds amt
  | .unlock amt => a.unlockFunds amt
  | .debit amt => a.debitLocked amt

/-! ## Withdrawal lifecycle -/

/-- Modelled from the spec: the withdrawal statuses of §4.4's state machine
(`pending → broadcasting → confirmed | failed`).  The source only documents
these values on the `CryptoWithdrawal.Status` field. -/
inductive WithdrawalStatus where
  | pending
  | broadcasting
  | confirmed
  | failed
deriving DecidableEq, Repr

/-- The `CryptoWithdrawal` record of cmd/server/main.go restricted to the
lifecycle fields. -/
structure CryptoWithdrawal where
  toAddress : String
  amount : Nat
  fee : Nat
  txHash : Option String
  status : WithdrawalStatus
  failureReason : Option String
  confirmations : Nat
deriving DecidableEq, Repr

/-- A withdrawal together with the account it draws from. -/
structure WithdrawalState where
  withdrawal : CryptoWithdrawal
  account : Account
deriving DecidableEq, Repr

/-- Modelled from the spec: §4.4 `create` — validates the destination
address (validity of the string for the target chain is delegated to an
external validator, passed as `addrValid`), atomically moves the amount from
available to locked and persists the withdrawal in `pending`.  No
implementation exists in the source. -/
def createWithdrawal (a : Account) (toAddr : String) (addrValid : Bool)
    (amt : Nat) : Except CryptoErr WithdrawalState :=
  if !addrValid then
    .error .invalidAddress
  else
    match a.lockFunds amt with
    | .error e => .error e
    | .ok a' => .ok ⟨⟨toAddr, amt, 0, none, .pending, none, 0⟩, a'⟩

/-- Modelled from the spec: §4.4 `fail` — legal only while `pending` or
`broadcasting` with no confirmed broadcast; it restores the locked amount to
available and records the failure reason; on a `confirmed` (or already
`failed`) withdrawal it is rejected with `IllegalTransition`.  The embedding
is state-passing, so an `error` result leaves the state unchanged by
construction.  No implementation exists in the source. -/
def failWithdrawal (s : WithdrawalState) (reason : String) :
    Except CryptoErr WithdrawalState :=
  match s.withdrawal.status with
  | .confirmed => .error .illegalTransition
  | .failed => .error .illegalTransition
  | _ =>
    match s.account.unlockFunds s.withdrawal.amount with
    | .error e => .error e
    | .ok a' =>
      .ok ⟨{ s.withdrawal with status := .failed, failureReason := some reason }, a'⟩

/-- Modelled from the spec: §4.4 `cancel` — identical effect to `fail` but
only permitted in `pending`.  No implementation exists in the source. -/
def cancelWithdrawal (s : WithdrawalState) (reason : String) :
    Except CryptoErr WithdrawalState :=
  match s.withdrawal.status with
  | .pending =>
    match s.account.unlockFunds s.withdrawal.amount with
    | .error e => .error e
    | .ok a' =>
      .ok ⟨{ s.withdrawal with status := .failed, failureReason := some reason }, a'⟩
  | _ => .error .illegalTransition

/-- Modelled from the spec: §4.4 `advance` — updates the confirmation count
(forward only, per §8's monotonicity property) and transitions a
`broadcasting` withdrawal to `confirmed` once the count reaches the chain's
required threshold; no balance change occurs here.  No implementation exists
in the source. -/
def advanceWithdrawal (w : CryptoWithdrawal) (conf threshold : Nat) :
    CryptoWithdrawal :=
  let c := max w.confirmations conf
  { w with
    confirmations := c,
    status := if threshold ≤ c ∧ w.status = .broadcasting then .confirmed
              else w.status }

/-! ## Deposit pipeline -/

/-- Modelled from the spec: the deposit statuses of §4.3's state machine
(`pending → confirmed → credited`). -/
inductive DepositStatus where
  | pending
  | confirmed
  | credited
deriving DecidableEq, Repr

/-- The `CryptoDeposit` record of cmd/server/main.go restricted to the
lifecycle fields. -/
structure CryptoDeposit where
  txHash : String
  amount : Nat
  confirmations : Nat
  requiredConfirms : Nat
  status : DepositStatus
deriving DecidableEq, Repr

/-- A deposit together with the account it credits. -/
structure DepositState where
  deposit : CryptoDeposit
  account : Account
deriving DecidableEq, Repr

/-- Modelled from the spec: §4.3 `advance` — if the deposit is `pending` and
its confirmations reach the required threshold it transitions to
`confirmed`; a `confirmed` deposit triggers `credit`, which atomically
increases the destination account's total and available balance by the
amount and sets the status to `credited`; idempotency is obtained by
checking the current status before crediting, so a `credited` deposit is
left untouched.  No `DepositService` implementation exists in the source. -/
def advanceDeposit (s : DepositState) : DepositState :=
  let s1 :=
    if s.deposit.status = .pending ∧
        s.deposit.requiredConfirms ≤ s.deposit.confirmations then
      ⟨{ s.deposit with status := .confirmed }, s.account⟩
    else s
  if s1.deposit.status = .confirmed then
    ⟨{ s1.deposit with status := .credited },
      s1.account.credit s1.deposit.amount⟩
  else s1

/-- Modelled from the spec: §4.3 `observe` — creates the deposit if its tx
hash is unseen, else updates the stored confirmation count from the latest
observation, moving it only forward (re-observing with the same or a lower
count is a no-op).  No implementation exists in the source. -/
def observeDeposit (store : List CryptoDeposit) (txHash : String)
    (amount conf req : Nat) : List CryptoDeposit :=
  match store.find? (fun d => d.txHash == txHash) with
  | none => ⟨txHash, amount, conf, req, .pending⟩ :: store
  | some _ =>
    store.map (fun d =>
      if d.txHash == txHash then
        { d with confirmations := max d.confirmations conf }
      else d)

/-- The stored confirmation count of the deposit with the given tx hash. -/
def storedConf (store : List CryptoDeposit) (txHash : String) : Option Nat :=
  (store.find? (fun d => d.txHash == txHash)).map CryptoDeposit.confirmations

/-- Tx hashes are pairwise distinct in the deposit store (the `tx_hash`
column carries a gorm `unique` tag). -/
def DepositsUnique (store : List CryptoDeposit) : Prop :=
  store.Pairwise (fun a b => a.txHash ≠ b.txHash)

instance (store : List CryptoDeposit) : Decidable (DepositsUnique store) := by
  unfold DepositsUnique
  infer_instance

/-! ## Address registry -/

/-- The `CryptoAddress` record of cmd/server/main.go restricted to the
registry fields. -/
structure AddressRecord where
  userId : Nat
  address : String
  network : String
  cryptoType : String
  isActive : Bool
deriving DecidableEq, Repr

/-- Address strings are pairwise distinct in the registry (the `address`
column carries a gorm `unique` tag). -/
def AddressesUnique (reg : List AddressRecord) : Prop :=
  reg.Pairwise (fun a b => a.address ≠ b.address)

/-- Modelled from the spec: §4.1 `register` — fails with `DuplicateAddress`
if the generated or imported string already exists, regardless of owner;
otherwise inserts the new active address.  No `WalletService` implementation
exists in the source. -/
def registerAddress (reg : List AddressRecord) (owner : Nat)
    (network cryptoType addrStr : String) : Except CryptoErr (List AddressRecord) :=
  if reg.any (fun a => a.address == addrStr) then
    .error .duplicateAddress
  else
    .ok (⟨owner, addrStr, network, cryptoType, true⟩ :: reg)

/-! ## UTXO tracker -/

/-- The `CryptoUTXO` record of cmd/server/main.go restricted to the tracker
fields. -/
structure CryptoUTXO where
  addressId : Nat
  txHash : String
  vout : Nat
  amount : Nat
  isSpent : Bool
  spentTxHash : Option String
  blockHeight : Nat
  confirmations : Nat
deriving DecidableEq, Repr

/-- The identifying reference of an output: (tx hash, output index). -/
def CryptoUTXO.key (u : CryptoUTXO) : String × Nat := (u.txHash, u.vout)

/-- Keys (tx hash, output index) are pairwise distinct in the UTXO store. -/
def UTXOKeysUnique (store : List CryptoUTXO) : Prop :=
  store.Pairwise (fun a b => a.key ≠ b.key)

/-- Modelled from the spec: §4.2 `recordUTXO` — inserts if (txHash, vout) is
absent; fails with `DuplicateUTXO` if an unspent record with a different
amount is present; otherwise leaves the store unchanged.  No UTXO-tracker
implementation exists in the source. -/
def recordUTXO (store : List CryptoUTXO) (addrId : Nat) (txHash : String)
    (vout amount conf height : Nat) : Except CryptoErr (List CryptoUTXO) :=
  match store.find? (fun u => u.txHash == txHash && u.vout == vout) with
  | none => .ok (⟨addrId, txHash, vout, amount, false, none, height, conf⟩ :: store)
  | some u =>
    if !u.isSpent && u.amount != amount then .error .duplicateUTXO
    else .ok store

/-- A candidate for coin selection: owned by the address, unspent and
confirmed (at least one confirmation), per §4.2 `selectInputs`. -/
def selectable (addrId : Nat) (u : CryptoUTXO) : Bool :=
  u.addressId == addrId && !u.isSpent && decide (1 ≤ u.confirmations)

/-- Sum of the amounts of a list of outputs. -/
def sumAmt (l : List CryptoUTXO) : Nat := (l.map CryptoUTXO.amount).sum

/-- Modelled from the spec: the estimated fee of §4.2 scales with the number
of selected inputs. -/
def estimatedFee (feeRatePerByte n : Nat) : Nat := feeRatePerByte * n

/-- The candidate ordering of §4.2: amount descending, ties broken by lowest
block height. -/
def utxoBefore (a b : CryptoUTXO) : Prop :=
  b.amount < a.amount ∨ (a.amount = b.amount ∧ a.blockHeight ≤ b.blockHeight)

instance : DecidableRel utxoBefore := fun a b => by
  unfold utxoBefore
  infer_instance

/-- Modelled from the spec: the greedy accumulation of §4.2 `selectInputs` —
walk the sorted candidates, stopping as soon as the accumulated sum covers
`target + estimatedFee(selected.count)` (the fee is re-evaluated after each
addition); `none` when the candidates are exhausted first. -/
def greedyPick (target feeRate : Nat) :
    List CryptoUTXO → List CryptoUTXO → Option (List CryptoUTXO)
  | acc, [] =>
    if target + estimatedFee feeRate acc.length ≤ sumAmt acc then some acc
    else none
  | acc, u :: rest =>
    if target + estimatedFee feeRate acc.length ≤ sumAmt acc then some acc
    else greedyPick target feeRate (acc ++ [u]) rest

/-- Modelled from the spec: §4.2 `selectInputs` — sort the unspent confirmed
candidates of the address by the policy ordering, greedily accumulate, and
return the selection together with the change amount, or `none` for
`InsufficientFunds`. -/
def selectInputs (store : List CryptoUTXO) (addrId target feeRate : Nat) :
    Option (List CryptoUTXO × Nat) :=
  match greedyPick target feeRate []
      (List.insertionSort utxoBefore (store.filter (selectable addrId))) with
  | none => none
  | some sel =>
    some (sel, sumAmt sel - (target + estimatedFee feeRate sel.length))

/-- Modelled from the spec: §4.2 `markSpent` — atomically (here: in one pure
update) marks every referenced output spent, recording the spending tx hash
and retaining the record for audit. -/
def markSpent (store : List CryptoUTXO) (refs : List (String × Nat))
    (spendingTx : String) : List CryptoUTXO :=
  store.map (fun u =>
    if refs.contains u.key then
      { u with isSpent := true, spentTxHash := some spendingTx }
    else u)

/-- Modelled from the spec: the withdrawal `prepare` of §4.4/§5 on a UTXO
chain — `selectInputs` followed by `markSpent` as a single serializable unit
per address; returns the updated store and the selection, or
`InsufficientUTXOs`. -/
def prepareWithdrawal (store : List CryptoUTXO) (addrId target feeRate : Nat)
    (spendingTx : String) : Except CryptoErr (List CryptoUTXO × List CryptoUTXO) :=
  match selectInputs store addrId target feeRate with
  | none => .error .insufficientUTXOs
  | some (sel, _) => .ok (markSpent store (sel.map CryptoUTXO.key) spendingTx, sel)

/-- The total amount sitting in confirmed unspent outputs of an address. -/
def availSum (store : List CryptoUTXO) (addrId : Nat) : Nat :=
  sumAmt (store.filter (selectable addrId))

/-! ## Theorems -/

/-- Crediting preserves the balance invariant. -/
theorem Account.credit_inv {a : Account} {amt : Nat} (h : a.Inv) :
    (a.credit amt).Inv := by
  obtain ⟨h1, h2, h3, h4⟩ := h
  unfold Account.Inv Account.credit
  dsimp only
  omega

/-- Locking preserves the balance invariant. -/
theorem Account.lockFunds_inv {a a' : Account} {amt : Nat} (h : a.Inv)
    (he : a.lockFunds amt = .ok a') : a'.Inv := by
  obtain ⟨h1, h2, h3, h4⟩ := h
  unfold Account.lockFunds at he
  split at he
  · rename_i hle
    injection he with he
    subst he
    unfold Account.Inv
    dsimp only
    omega
  · exact Except.noConfusion he

/-- Unlocking preserves the balance invariant. -/
theorem Account.unlockFunds_inv {a a' : Account} {amt : Nat} (h : a.Inv)
    (he : a.unlockFunds amt = .ok a') : a'.Inv := by
  obtain ⟨h1, h2, h3, h4⟩ := h
  unfold Account.unlockFunds at he
  split at he
  · rename_i hle
    injection he with he
    subst he
    unfold Account.Inv
    dsimp only
    omega
  · exact Except.noConfusion he

/-- Debiting locked funds preserves the balance invariant. -/
theorem Account.debitLocked_inv {a a' : Account} {amt : Nat} (h : a.Inv)
    (he : a.debitLocked amt = .ok a') : a'.Inv := by
  obtain ⟨h1, h2, h3, h4⟩ := h
  unfold Account.debitLocked at he
  split at he
  · rename_i hle
    injection he with he
    subst he
    unfold Account.Inv
    dsimp only
    omega
  · exact Except.noConfusion he

/-- Claim C2: after every operation of the core (credit, lock, unlock,
debit, withdrawal create/fail/cancel) that returns a new state, the account
satisfies `total = available + locked` with none of the three negative. -/
theorem balance_invariant_preserved :
    (∀ (op : AccountOp) (a a' : Account), a.Inv → a.applyOp op = .ok a' → a'.Inv) ∧
    (∀ (a : Account) (dest : String) (v : Bool) (amt : Nat) (s : WithdrawalState),
      a.Inv → createWithdrawal a dest v amt = .ok s → s.account.Inv) ∧
    (∀ (s : WithdrawalState) (r : String) (s' : WithdrawalState),
      s.account.Inv → failWithdrawal s r = .ok s' → s'.account.Inv) ∧
    (∀ (s : WithdrawalState) (r : String) (s' : WithdrawalState),
      s.account.Inv → cancelWithdrawal s r = .ok s' → s'.account.Inv) := by
  have hop : ∀ (op : AccountOp) (a a' : Account), a.Inv → a.applyOp op = .ok a' → a'.Inv := by
    intro op a a' h he
    cases op with
    | credit amt =>
      unfold Account.applyOp at he
      injection he with he
      subst he
      exact Account.credit_inv h
    | lock amt => exact Account.lockFunds_inv h he
    | unlock amt => exact Account.unlockFunds_inv h he
    | debit amt => exact Account.debitLocked_inv h he
  refine ⟨hop, ?_, ?_, ?_⟩
  · intro a dest v amt s h he
    unfold createWithdrawal at he
    split at he
    · exact Except.noConfusion he
    · cases hl : a.lockFunds amt with
      | error e => rw [hl] at he; exact Except.noConfusion he
      | ok a2 =>
        rw [hl] at he
        injection he with he
        subst he
        exact Account.lockFunds_inv h hl
  · intro s r s' h he
    unfold failWithdrawal at he
    cases hl : s.account.unlockFunds s.withdrawal.amount with
    | error e =>
      rw [hl] at he
      split at he <;> exact Except.noConfusion he
    | ok a2 =>
      rw [hl] at he
      split at he <;>
        first
          | exact Except.noConfusion he
          | (injection he with he; subst he; exact Account.unlockFunds_inv h hl)
  · intro s r s' h he
    unfold cancelWithdrawal at he
    cases hl : s.account.unlockFunds s.withdrawal.amount with
    | error e =>
      rw [hl] at he
      split at he <;> exact Except.noConfusion he
    | ok a2 =>
      rw [hl] at he
      split at he <;>
        first
          | exact Except.noConfusion he
          | (injection he with he; subst he; exact Account.unlockFunds_inv h hl)

/-- Witness for C2 at a concrete input: locking 3 out of 10 available keeps
the invariant. -/
theorem balance_invariant_preserved_witness : (Account.mk 10 7 3).Inv :=
  balance_invariant_preserved.1 (.lock 3) ⟨10, 10, 0⟩ ⟨10, 7, 3⟩ (by decide) rfl

/-- Claim C5: `fail` on a `confirmed` withdrawal returns `IllegalTransition`
(the embedding is state-passing, so an error result leaves the state
unchanged); `fail` is legal while `pending` or `broadcasting`, in which case
it marks the withdrawal failed and restores the locked amount to available
without touching the total. -/
theorem failWithdrawal_rejects_confirmed :
    (∀ (s : WithdrawalState) (r : String), s.withdrawal.status = .confirmed →
      failWithdrawal s r = .error .illegalTransition) ∧
    (∀ (s : WithdrawalState) (r : String),
      (s.withdrawal.status = .pending ∨ s.withdrawal.status = .broadcasting) →
      (s.withdrawal.amount : Int) ≤ s.account.lockedBalance →
      ∃ s', failWithdrawal s r = .ok s' ∧
        s'.withdrawal.status = .failed ∧
        s'.withdrawal.failureReason = some r ∧
        s'.account.availableBalance =
          s.account.availableBalance + s.withdrawal.amount ∧
        s'.account.lockedBalance =
          s.account.lockedBalance - s.withdrawal.amount ∧
        s'.account.balance = s.account.balance) := by
  constructor
  · intro s r hs
    unfold failWithdrawal
    rw [hs]
  · intro s r hs hle
    have hunlock : s.account.unlockFunds s.withdrawal.amount =
        .ok { s.account with
                availableBalance := s.account.availableBalance + s.withdrawal.amount,
                lockedBalance := s.account.lockedBalance - s.withdrawal.amount } := by
      unfold Account.unlockFunds
      rw [if_pos hle]
    refine ⟨⟨{ s.withdrawal with status := .failed, failureReason := some r },
              { s.account with
                availableBalance := s.account.availableBalance + s.withdrawal.amount,
                lockedBalance := s.account.lockedBalance - s.withdrawal.amount }⟩,
            ?_, rfl, rfl, rfl, rfl, rfl⟩
    cases hs with
    | inl hp =>
      unfold failWithdrawal
      rw [hp, hunlock]
    | inr hb =>
      unfold failWithdrawal
      rw [hb, hunlock]

/-- Witness for C5 at a concrete input: failing a confirmed withdrawal is
rejected with `IllegalTransition`. -/
theorem failWithdrawal_rejects_confirmed_witness :
    failWithdrawal ⟨⟨"dest", 5, 1, some "tx", .confirmed, none, 6⟩, ⟨10, 5, 5⟩⟩
        "late failure" = .error .illegalTransition :=
  failWithdrawal_rejects_confirmed.1
    ⟨⟨"dest", 5, 1, some "tx", .confirmed, none, 6⟩, ⟨10, 5, 5⟩⟩ "late failure" rfl

/-- Claim C6: the address string is unique across the whole system
regardless of owner: registration preserves pairwise-distinct address
strings, fails with `DuplicateAddress` exactly when the string already
exists, and under the invariant two distinct records never share an address
string. -/
theorem address_string_globally_unique :
    (∀ (reg : List AddressRecord) (o : Nat) (n c s : String)
        (reg' : List AddressRecord), AddressesUnique reg →
      registerAddress reg o n c s = .ok reg' → AddressesUnique reg') ∧
    (∀ (reg : List AddressRecord) (o : Nat) (n c s : String),
      (∃ a ∈ reg, a.address = s) →
      registerAddress reg o n c s = .error .duplicateAddress) ∧
    (∀ reg : List AddressRecord, AddressesUnique reg →
      ∀ a ∈ reg, ∀ b ∈ reg, a ≠ b → a.address ≠ b.address) := by
  refine ⟨?_, ?_, ?_⟩
  · intro reg o n c s reg' hu he
    unfold registerAddress at he
    split at he
    · exact Except.noConfusion he
    · rename_i hany
      injection he with he
      subst he
      unfold AddressesUnique
      refine List.Pairwise.cons ?_ hu
      intro b hb
      dsimp only
      intro heq
      apply hany
      rw [List.any_eq_true]
      exact ⟨b, hb, by simp [heq.symm]⟩
  · intro reg o n c s hex
    obtain ⟨a, ha, haddr⟩ := hex
    have hany : reg.any (fun x => x.address == s) = true := by
      rw [List.any_eq_true]
      exact ⟨a, ha, by simp [haddr]⟩
    unfold registerAddress
    rw [if_pos hany]
  · intro reg hu a ha b hb hab
    exact List.Pairwise.forall (fun x y hxy => Ne.symm hxy) hu ha hb hab

/-- Witness for C6 at a concrete input: re-registering an existing address
string fails with `DuplicateAddress`. -/
theorem address_string_globally_unique_witness :
    registerAddress [⟨1, "bc1qaddr", "mainnet", "bitcoin", true⟩] 2 "mainnet"
        "bitcoin" "bc1qaddr" = .error .duplicateAddress :=
  address_string_globally_unique.2.1
    [⟨1, "bc1qaddr", "mainnet", "bitcoin", true⟩] 2 "mainnet" "bitcoin" "bc1qaddr"
    ⟨⟨1, "bc1qaddr", "mainnet", "bitcoin", true⟩, by decide⟩

/-- `find?` by tx hash commutes with the confirmation-raising map of
`observeDeposit`, because the map preserves each record's tx hash. -/
theorem find?_observe_map (store : List CryptoDeposit) (h h' : String) (conf : Nat) :
    List.find? (fun d => d.txHash == h)
      (store.map (fun d =>
        if d.txHash == h' then { d with confirmations := max d.confirmations conf }
        else d)) =
    (store.find? (fun d => d.txHash == h)).map
      (fun d =>
        if d.txHash == h' then { d with confirmations := max d.confirmations conf }
        else d) := by
  rw [List.find?_map]
  have hcomp : ((fun d : CryptoDeposit => d.txHash == h) ∘ fun d =>
      if d.txHash == h' then { d with confirmations := max d.confirmations conf }
      else d) = (fun d : CryptoDeposit => d.txHash == h) := by
    funext d
    by_cases hd : (d.txHash == h') = true <;> simp [Function.comp, hd]
  rw [hcomp]

/-- Claim C8: repeated `observe`/`advance` calls never decrease the stored
confirmation count of a deposit or withdrawal, and re-observing the same tx
hash with the same or a lower count is a no-op: the stored count only moves
forward. -/
theorem confirmations_monotonic :
    (∀ (store : List CryptoDeposit) (h : String) (amt conf req c : Nat),
      DepositsUnique store → storedConf store h = some c → conf ≤ c →
      observeDeposit store h amt conf req = store) ∧
    (∀ (store : List CryptoDeposit) (h h' : String) (amt conf req c : Nat),
      storedConf store h = some c →
      ∃ c', storedConf (observeDeposit store h' amt conf req) h = some c' ∧ c ≤ c') ∧
    (∀ (confs : List Nat) (store : List CryptoDeposit) (h : String) (amt req c : Nat),
      storedConf store h = some c →
      ∃ c', storedConf
          (confs.foldl (fun st cf => observeDeposit st h amt cf req) store) h =
            some c' ∧ c ≤ c') ∧
    (∀ (w : CryptoWithdrawal) (conf threshold : Nat),
      w.confirmations ≤ (advanceWithdrawal w conf threshold).confirmations ∧
      (conf ≤ w.confirmations →
        (advanceWithdrawal w conf threshold).confirmations = w.confirmations)) := by
  have hstep : ∀ (store : List CryptoDeposit) (h h' : String) (amt conf req c : Nat),
      storedConf store h = some c →
      ∃ c', storedConf (observeDeposit store h' amt conf req) h = some c' ∧ c ≤ c' := by
    intro store h h' amt conf req c hsc
    unfold storedConf at hsc
    cases hf : store.find? (fun d => d.txHash == h) with
    | none => rw [hf] at hsc; exact Option.noConfusion hsc
    | some d =>
      rw [hf] at hsc
      injection hsc with hsc
      cases hf' : store.find? (fun d => d.txHash == h') with
      | none =>
        have hobs : observeDeposit store h' amt conf req =
            ⟨h', amt, conf, req, .pending⟩ :: store := by
          unfold observeDeposit
          rw [hf']
        have hne : (h' == h) = false := by
          by_contra hx
          have hx' : h' = h := by
            have := eq_true_of_ne_false hx
            exact beq_iff_eq.mp this
          subst hx'
          rw [hf] at hf'
          exact Option.noConfusion hf'
        refine ⟨d.confirmations, ?_, Nat.le_of_eq hsc.symm⟩
        unfold storedConf
        rw [hobs, List.find?_cons]
        dsimp only
        rw [hne, hf]
        rfl
      | some d0 =>
        have hobs : observeDeposit store h' amt conf req =
            store.map (fun d =>
              if d.txHash == h' then
                { d with confirmations := max d.confirmations conf }
              else d) := by
          unfold observeDeposit
          rw [hf']
        refine ⟨(if d.txHash == h' then
            { d with confirmations := max d.confirmations conf } else d).confirmations,
          ?_, ?_⟩
        · unfold storedConf
          rw [hobs, find?_observe_map, hf]
          rfl
        · by_cases hdh : (d.txHash == h') = true
          · rw [if_pos hdh]
            exact hsc ▸ Nat.le_max_left _ _
          · rw [if_neg hdh]
            exact Nat.le_of_eq hsc.symm
  have hfold : ∀ (confs : List Nat) (store : List CryptoDeposit) (h : String)
      (amt req c : Nat), storedConf store h = some c →
      ∃ c', storedConf
          (confs.foldl (fun st cf => observeDeposit st h amt cf req) store) h =
            some c' ∧ c ≤ c' := by
    intro confs
    induction confs with
    | nil => intro store h amt req c hsc; exact ⟨c, hsc, Nat.le_refl c⟩
    | cons cf rest ih =>
      intro store h amt req c hsc
      obtain ⟨c₂, h₂, hc₂⟩ := hstep store h h amt cf req c hsc
      obtain ⟨c', h', hc'⟩ := ih _ h amt req c₂ h₂
      exact ⟨c', h', Nat.le_trans hc₂ hc'⟩
  refine ⟨?_, hstep, hfold, ?_⟩
  · intro store h amt conf req c hu hsc hle
    unfold storedConf at hsc
    cases hf : store.find? (fun d => d.txHash == h) with
    | none => rw [hf] at hsc; exact Option.noConfusion hsc
    | some d =>
      rw [hf] at hsc
      injection hsc with hsc
      unfold observeDeposit
      rw [hf]
      have hall : ∀ x ∈ store,
          (if x.txHash == h then { x with confirmations := max x.confirmations conf }
           else x) = x := by
        intro x hx
        by_cases hxh : (x.txHash == h) = true
        · have hd : d ∈ store := List.mem_of_find?_eq_some hf
          have hdh := List.find?_some hf
          have hxd : x = d := by
            by_contra hne
            have hdiff := List.Pairwise.forall
              (R := fun a b : CryptoDeposit => a.txHash ≠ b.txHash)
              (fun u v huv => Ne.symm huv) hu hx hd hne
            exact hdiff ((beq_iff_eq.mp hxh).trans (beq_iff_eq.mp hdh).symm)
          subst hxd
          rw [if_pos hxh, Nat.max_eq_left (hsc ▸ hle)]
        · rw [if_neg hxh]
      exact (List.map_congr_left hall).trans (List.map_id store)
  · intro w conf threshold
    constructor
    · unfold advanceWithdrawal
      dsimp only
      exact Nat.le_max_left _ _
    · intro hle
      unfold advanceWithdrawal
      dsimp only
      exact Nat.max_eq_left hle

/-- Witness for C8 at a concrete input: re-observing with a lower count is a
no-op. -/
theorem confirmations_monotonic_witness :
    observeDeposit [⟨"tx1", 5, 6, 6, .pending⟩] "tx1" 5 4 6 =
      [⟨"tx1", 5, 6, 6, .pending⟩] :=
  confirmations_monotonic.1 [⟨"tx1", 5, 6, 6, .pending⟩] "tx1" 5 4 6 6
    (by decide) rfl (by decide)

/-- Claim C1: calling `advance` any number of times credits the destination
account exactly once, by exactly the deposit amount: a `credited` deposit is
a fixed point (a second crediting attempt is a no-op), the balance changes
only at the transition to `credited` and then exactly by the amount, and
over any number of iterations the balance has increased by the amount
exactly when the deposit has become `credited`. -/
theorem deposit_credited_exactly_once :
    (∀ s : DepositState, s.deposit.status = .credited → advanceDeposit s = s) ∧
    (∀ s : DepositState,
      (advanceDeposit s).account.balance ≠ s.account.balance →
      s.deposit.status ≠ .credited ∧
      (advanceDeposit s).deposit.status = .credited ∧
      (advanceDeposit s).account.balance =
        s.account.balance + s.deposit.amount) ∧
    (∀ (s : DepositState) (n : ℕ), s.deposit.status ≠ .credited →
      (advanceDeposit^[n] s).account.balance =
        s.account.balance +
          (if (advanceDeposit^[n] s).deposit.status = .credited then
            (s.deposit.amount : Int) else 0)) := by
  have hfix : ∀ s : DepositState, s.deposit.status = .credited →
      advanceDeposit s = s := by
    intro s hs
    simp [advanceDeposit, hs]
  have hpend_low : ∀ s : DepositState, s.deposit.status = .pending →
      ¬(s.deposit.requiredConfirms ≤ s.deposit.confirmations) →
      advanceDeposit s = s := by
    intro s h1 h2
    simp [advanceDeposit, h1, h2]
  have hcredit : ∀ s : DepositState,
      (s.deposit.status = .pending ∧
        s.deposit.requiredConfirms ≤ s.deposit.confirmations) ∨
      s.deposit.status = .confirmed →
      advanceDeposit s =
        ⟨{ s.deposit with status := .credited },
          s.account.credit s.deposit.amount⟩ := by
    intro s hs
    cases hs with
    | inl hp => simp [advanceDeposit, hp.1, hp.2]
    | inr hc => simp [advanceDeposit, hc]
  refine ⟨hfix, ?_, ?_⟩
  · intro s hne
    cases hs : s.deposit.status with
    | pending =>
      by_cases hc : s.deposit.requiredConfirms ≤ s.deposit.confirmations
      · rw [hcredit s (Or.inl ⟨hs, hc⟩)]
        refine ⟨by simp [hs], rfl, ?_⟩
        simp [Account.credit]
      · exact absurd (by rw [hpend_low s hs hc]) hne
    | confirmed =>
      rw [hcredit s (Or.inr hs)]
      refine ⟨by simp [hs], rfl, ?_⟩
      simp [Account.credit]
    | credited => exact absurd (by rw [hfix s hs]) hne
  · have h3 : ∀ (n : ℕ) (s : DepositState), s.deposit.status ≠ .credited →
        (advanceDeposit^[n] s).account.balance =
          s.account.balance +
            (if (advanceDeposit^[n] s).deposit.status = .credited then
              (s.deposit.amount : Int) else 0) := by
      intro n
      induction n with
      | zero =>
        intro s hne
        simp [Function.iterate_zero_apply, hne]
      | succ n ih =>
        intro s hne
        rw [Function.iterate_succ_apply]
        cases hs : s.deposit.status with
        | pending =>
          by_cases hc : s.deposit.requiredConfirms ≤ s.deposit.confirmations
          · rw [hcredit s (Or.inl ⟨hs, hc⟩)]
            rw [Function.iterate_fixed (hfix _ rfl) n]
            simp [Account.credit]
          · rw [hpend_low s hs hc]
            exact ih s hne
        | confirmed =>
          rw [hcredit s (Or.inr hs)]
          rw [Function.iterate_fixed (hfix _ rfl) n]
          simp [Account.credit]
        | credited => exact absurd hs hne
    exact fun s n hne => h3 n s hne

/-- Witness for C1 at a concrete input: a pending deposit of 2 units with
enough confirmations, advanced twice, credits the account once. -/
theorem deposit_credited_exactly_once_witness :
    (advanceDeposit^[2] ⟨⟨"txd", 2, 6, 6, .pending⟩, ⟨0, 0, 0⟩⟩).account.balance =
      (⟨⟨"txd", 2, 6, 6, .pending⟩, ⟨0, 0, 0⟩⟩ : DepositState).account.balance +
        (if (advanceDeposit^[2]
              (⟨⟨"txd", 2, 6, 6, .pending⟩, ⟨0, 0, 0⟩⟩ : DepositState)).deposit.status =
            .credited then
          ((⟨⟨"txd", 2, 6, 6, .pending⟩, ⟨0, 0, 0⟩⟩ : DepositState).deposit.amount : Int)
        else 0) :=
  deposit_credited_exactly_once.2.2 ⟨⟨"txd", 2, 6, 6, .pending⟩, ⟨0, 0, 0⟩⟩ 2
    (by decide)

/-- The amount sum of a cons. -/
theorem sumAmt_cons (u : CryptoUTXO) (l : List CryptoUTXO) :
    sumAmt (u :: l) = u.amount + sumAmt l := by
  simp [sumAmt]

/-- The amount sum is monotone under sublists. -/
theorem sumAmt_sublist {l₁ l₂ : List CryptoUTXO} (h : l₁.Sublist l₂) :
    sumAmt l₁ ≤ sumAmt l₂ :=
  List.Sublist.sum_le_sum (h.map CryptoUTXO.amount) (fun a _ => Nat.zero_le a)

/-- The amount sum is invariant under permutation. -/
theorem sumAmt_perm {l₁ l₂ : List CryptoUTXO} (h : l₁.Perm l₂) :
    sumAmt l₁ = sumAmt l₂ :=
  (h.map CryptoUTXO.amount).sum_eq

/-- A successful greedy pick extends the accumulator by a prefix of the
remaining candidates. -/
theorem greedyPick_shape (t f : Nat) :
    ∀ (rest acc sel : List CryptoUTXO), greedyPick t f acc rest = some sel →
      ∃ k, sel = acc ++ rest.take k := by
  intro rest
  induction rest with
  | nil =>
    intro acc sel h
    unfold greedyPick at h
    split at h
    · injection h with h
      subst h
      exact ⟨0, by simp⟩
    · exact Option.noConfusion h
  | cons u rest ih =>
    intro acc sel h
    unfold greedyPick at h
    split at h
    · injection h with h
      subst h
      exact ⟨0, by simp⟩
    · obtain ⟨k, hk⟩ := ih (acc ++ [u]) sel h
      refine ⟨k + 1, ?_⟩
      rw [hk, List.take_succ_cons, List.append_assoc]
      rfl

/-- A successful greedy pick covers the target plus the estimated fee of
the selection. -/
theorem greedyPick_covers (t f : Nat) :
    ∀ (rest acc sel : List CryptoUTXO), greedyPick t f acc rest = some sel →
      t + estimatedFee f sel.length ≤ sumAmt sel := by
  intro rest
  induction rest with
  | nil =>
    intro acc sel h
    unfold greedyPick at h
    split at h
    · rename_i hcond
      injection h with h
      subst h
      exact hcond
    · exact Option.noConfusion h
  | cons u rest ih =>
    intro acc sel h
    unfold greedyPick at h
    split at h
    · rename_i hcond
      injection h with h
      subst h
      exact hcond
    · exact ih (acc ++ [u]) sel h

/-- A successful selection covers the target and is a sublist of the sorted
candidate list. -/
theorem selectInputs_spec {store : List CryptoUTXO} {aid t f : Nat}
    {sel : List CryptoUTXO} {c : Nat}
    (h : selectInputs store aid t f = some (sel, c)) :
    t ≤ sumAmt sel ∧
    sel.Sublist (List.insertionSort utxoBefore (store.filter (selectable aid))) := by
  unfold selectInputs at h
  cases hg : greedyPick t f []
      (List.insertionSort utxoBefore (store.filter (selectable aid))) with
  | none => rw [hg] at h; exact Option.noConfusion h
  | some sel0 =>
    rw [hg] at h
    injection h with h
    rw [Prod.mk.injEq] at h
    obtain ⟨h1, h2⟩ := h
    subst h1
    constructor
    · have := greedyPick_covers t f _ [] sel0 hg
      omega
    · obtain ⟨k, hk⟩ := greedyPick_shape t f _ [] sel0 hg
      rw [hk, List.nil_append]
      exact List.take_sublist k _

/-- Every selected output is an unspent confirmed output of the address,
present in the store. -/
theorem selectInputs_mem {store : List CryptoUTXO} {aid t f : Nat}
    {sel : List CryptoUTXO} {c : Nat}
    (h : selectInputs store aid t f = some (sel, c)) :
    ∀ u ∈ sel, u ∈ store.filter (selectable aid) := by
  intro u hu
  have hsub := (selectInputs_spec h).2
  exact (List.perm_insertionSort utxoBefore _).subset (hsub.subset hu)

/-- A successful selection never exceeds the available confirmed total. -/
theorem selectInputs_sum_le {store : List CryptoUTXO} {aid t f : Nat}
    {sel : List CryptoUTXO} {c : Nat}
    (h : selectInputs store aid t f = some (sel, c)) :
    sumAmt sel ≤ availSum store aid :=
  (sumAmt_sublist (selectInputs_spec h).2).trans
    (Nat.le_of_eq (sumAmt_perm (List.perm_insertionSort utxoBefore _)))

/-- Marking outputs spent removes exactly the referenced keys from the
selectable candidates. -/
theorem filter_markSpent (aid : Nat) (refs : List (String × Nat)) (tx : String) :
    ∀ store : List CryptoUTXO,
    (markSpent store refs tx).filter (selectable aid) =
      store.filter (fun u => selectable aid u && !decide (u.key ∈ refs)) := by
  intro store
  induction store with
  | nil => rfl
  | cons u st ih =>
    have hmark : markSpent (u :: st) refs tx =
        (if refs.contains u.key then
          { u with isSpent := true, spentTxHash := some tx }
         else u) :: markSpent st refs tx := rfl
    rw [hmark]
    by_cases hc : u.key ∈ refs
    · have hcb : refs.contains u.key = true := List.elem_iff.mpr hc
      have hsel : selectable aid { u with isSpent := true, spentTxHash := some tx } =
          false := by
        simp [selectable]
      simp [List.filter_cons, hcb, hc, hsel, ih]
    · have hcb : ¬(refs.contains u.key = true) := fun hx => hc (List.elem_iff.mp hx)
      simp [List.filter_cons, hcb, hc, ih]

/-- The candidate total splits along any boolean predicate on the
candidates. -/
theorem sumAmt_filter_split (p q : CryptoUTXO → Bool) :
    ∀ l : List CryptoUTXO,
    sumAmt (l.filter fun u => p u && q u) +
        sumAmt (l.filter fun u => p u && !q u) =
      sumAmt (l.filter p) := by
  intro l
  induction l with
  | nil => rfl
  | cons u st ih =>
    by_cases hp : p u = true <;> by_cases hq : q u = true <;>
      simp [List.filter_cons, hp, hq, sumAmt_cons] <;> omega

/-- A successful `prepare` is a successful selection followed by marking the
selection spent. -/
theorem prepareWithdrawal_ok {store : List CryptoUTXO} {aid t f : Nat}
    {tx : String} {store' sel : List CryptoUTXO}
    (h : prepareWithdrawal store aid t f tx = .ok (store', sel)) :
    ∃ c, selectInputs store aid t f = some (sel, c) ∧
      store' = markSpent store (sel.map CryptoUTXO.key) tx := by
  unfold prepareWithdrawal at h
  cases hs : selectInputs store aid t f with
  | none => rw [hs] at h; exact Except.noConfusion h
  | some p =>
    obtain ⟨sel0, c0⟩ := p
    rw [hs] at h
    injection h with h
    rw [Prod.mk.injEq] at h
    obtain ⟨h1, h2⟩ := h
    subst h2
    exact ⟨c0, rfl, h1.symm⟩

/-- Claim C4: every (tx hash, output index) pair has at most one record —
`recordUTXO` preserves key uniqueness, inserts only when the key is absent
and fails with `DuplicateUTXO` on an unspent record with a different
amount — and an output marked spent is never selected by any later
`selectInputs` call, while the spent record itself is retained. -/
theorem utxo_unique_spent_never_reselected :
    (∀ (store : List CryptoUTXO) (aid : Nat) (h : String) (v amt conf ht : Nat)
        (store' : List CryptoUTXO), UTXOKeysUnique store →
      recordUTXO store aid h v amt conf ht = .ok store' → UTXOKeysUnique store') ∧
    (∀ (store : List CryptoUTXO) (aid : Nat) (h : String) (v amt conf ht : Nat),
      store.find? (fun u => u.txHash == h && u.vout == v) = none →
      recordUTXO store aid h v amt conf ht =
        .ok (⟨aid, h, v, amt, false, none, ht, conf⟩ :: store)) ∧
    (∀ (store : List CryptoUTXO) (aid : Nat) (h : String) (v amt conf ht : Nat)
        (u : CryptoUTXO),
      store.find? (fun u => u.txHash == h && u.vout == v) = some u →
      u.isSpent = false → u.amount ≠ amt →
      recordUTXO store aid h v amt conf ht = .error .duplicateUTXO) ∧
    (∀ (store : List CryptoUTXO) (aid t f : Nat) (u : CryptoUTXO), u ∈ store →
      u.isSpent = true → ∀ (sel : List CryptoUTXO) (c : Nat),
      selectInputs store aid t f = some (sel, c) → u ∉ sel) ∧
    (∀ (store : List CryptoUTXO) (refs : List (String × Nat)) (tx : String)
        (aid t f : Nat) (sel : List CryptoUTXO) (c : Nat),
      selectInputs (markSpent store refs tx) aid t f = some (sel, c) →
      ∀ u ∈ sel, u.key ∉ refs) ∧
    (∀ (store : List CryptoUTXO) (refs : List (String × Nat)) (tx : String),
      (markSpent store refs tx).length = store.length ∧
      ∀ u ∈ store, ∃ u' ∈ markSpent store refs tx,
        u'.key = u.key ∧ u'.amount = u.amount ∧
        u'.isSpent = (u.isSpent || refs.contains u.key)) := by
  refine ⟨?_, ?_, ?_, ?_, ?_, ?_⟩
  · intro store aid h v amt conf ht store' hu he
    cases hf : store.find? (fun u => u.txHash == h && u.vout == v) with
    | none =>
      have hrec : recordUTXO store aid h v amt conf ht =
          .ok (⟨aid, h, v, amt, false, none, ht, conf⟩ :: store) := by
        unfold recordUTXO
        rw [hf]
      rw [hrec] at he
      injection he with he
      subst he
      unfold UTXOKeysUnique
      refine List.Pairwise.cons ?_ hu
      intro b hb hkey
      have hnone := List.find?_eq_none.mp hf b hb
      apply hnone
      have hkey' : (h, v) = (b.txHash, b.vout) := hkey
      injection hkey' with hk1 hk2
      rw [← hk1, ← hk2]
      simp
    | some u0 =>
      have hrec : recordUTXO store aid h v amt conf ht =
          if !u0.isSpent && u0.amount != amt then .error .duplicateUTXO
          else .ok store := by
        unfold recordUTXO
        rw [hf]
      rw [hrec] at he
      split at he
      · exact Except.noConfusion he
      · injection he with he
        subst he
        exact hu
  · intro store aid h v amt conf ht hf
    unfold recordUTXO
    rw [hf]
  · intro store aid h v amt conf ht u hf hspent hamt
    unfold recordUTXO
    rw [hf]
    simp [hspent, hamt]
  · intro store aid t f u hu hspent sel c hsel hmem
    have hcand := selectInputs_mem hsel u hmem
    have hselu := (List.mem_filter.mp hcand).2
    unfold selectable at hselu
    rw [hspent] at hselu
    simp at hselu
  · intro store refs tx aid t f sel c hsel u hu hkey
    have hcand := selectInputs_mem hsel u hu
    rw [filter_markSpent] at hcand
    have h2 := (List.mem_filter.mp hcand).2
    have h3 : decide (u.key ∈ refs) = false := by
      cases hd : decide (u.key ∈ refs)
      · rfl
      · rw [hd] at h2
        simp at h2
    exact absurd hkey (of_decide_eq_false h3)
  · intro store refs tx
    constructor
    · simp [markSpent]
    · intro u hu
      refine ⟨if refs.contains u.key then
          { u with isSpent := true, spentTxHash := some tx } else u,
        List.mem_map_of_mem _ hu, ?_, ?_, ?_⟩
      · cases hc : refs.contains u.key <;> simp [CryptoUTXO.key]
      · cases hc : refs.contains u.key <;> simp
      · cases hc : refs.contains u.key <;> simp

/-- Witness for C4 at a concrete input: recording a fresh output inserts
it. -/
theorem utxo_unique_spent_never_reselected_witness :
    recordUTXO [] 1 "txu" 0 7 1 100 =
      .ok [⟨1, "txu", 0, 7, false, none, 100, 1⟩] :=
  utxo_unique_spent_never_reselected.2.1 [] 1 "txu" 0 7 1 100 rfl

/-- Claim C3: with `selectInputs` followed by `markSpent` executed as one
serializable unit per address, two `prepare` calls against the same address
whose combined targets exceed the available confirmed total cannot both
succeed — the second fails with `InsufficientUTXOs` — and the selections of
any two successful preparations share no output key. -/
theorem prepare_no_double_spend :
    (∀ (store : List CryptoUTXO) (aid t₁ t₂ f₁ f₂ : Nat) (tx₁ tx₂ : String)
        (store' sel₁ : List CryptoUTXO),
      availSum store aid < t₁ + t₂ →
      prepareWithdrawal store aid t₁ f₁ tx₁ = .ok (store', sel₁) →
      prepareWithdrawal store' aid t₂ f₂ tx₂ = .error .insufficientUTXOs) ∧
    (∀ (store : List CryptoUTXO) (aid t₁ t₂ f₁ f₂ : Nat) (tx₁ tx₂ : String)
        (store' sel₁ store'' sel₂ : List CryptoUTXO),
      prepareWithdrawal store aid t₁ f₁ tx₁ = .ok (store', sel₁) →
      prepareWithdrawal store' aid t₂ f₂ tx₂ = .ok (store'', sel₂) →
      ∀ u₁ ∈ sel₁, ∀ u₂ ∈ sel₂, u₁.key ≠ u₂.key) := by
  constructor
  · intro store aid t₁ t₂ f₁ f₂ tx₁ tx₂ store' sel₁ hlt h1
    obtain ⟨c₁, hs₁, hst'⟩ := prepareWithdrawal_ok h1
    unfold prepareWithdrawal
    cases hs₂ : selectInputs store' aid t₂ f₂ with
    | none => rfl
    | some p =>
      exfalso
      obtain ⟨sel₂, c₂⟩ := p
      have ht₁ : t₁ ≤ sumAmt sel₁ := (selectInputs_spec hs₁).1
      have ht₂ : t₂ ≤ sumAmt sel₂ := (selectInputs_spec hs₂).1
      have hle₂ : sumAmt sel₂ ≤ availSum store' aid := selectInputs_sum_le hs₂
      have hsplit : sumAmt (store.filter fun u =>
            selectable aid u && decide (u.key ∈ sel₁.map CryptoUTXO.key)) +
          sumAmt (store.filter fun u =>
            selectable aid u && !decide (u.key ∈ sel₁.map CryptoUTXO.key)) =
          sumAmt (store.filter (selectable aid)) :=
        sumAmt_filter_split (selectable aid)
          (fun u => decide (u.key ∈ sel₁.map CryptoUTXO.key)) store
      have hout : availSum store' aid =
          sumAmt (store.filter fun u =>
            selectable aid u && !decide (u.key ∈ sel₁.map CryptoUTXO.key)) := by
        rw [hst']
        unfold availSum
        rw [filter_markSpent]
      have hq : sel₁.filter (fun u => decide (u.key ∈ sel₁.map CryptoUTXO.key)) =
          sel₁ :=
        List.filter_eq_self.mpr fun u hu =>
          decide_eq_true (List.mem_map_of_mem CryptoUTXO.key hu)
      have hin : sumAmt sel₁ ≤
          sumAmt (store.filter fun u =>
            selectable aid u && decide (u.key ∈ sel₁.map CryptoUTXO.key)) := by
        have hsub := (selectInputs_spec hs₁).2.filter
          (fun u => decide (u.key ∈ sel₁.map CryptoUTXO.key))
        rw [hq] at hsub
        refine (sumAmt_sublist hsub).trans (Nat.le_of_eq ?_)
        have hperm := (List.perm_insertionSort utxoBefore
            (store.filter (selectable aid))).filter
          (fun u => decide (u.key ∈ sel₁.map CryptoUTXO.key))
        refine (sumAmt_perm hperm).trans ?_
        rw [List.filter_filter]
        have hcomm : (fun a : CryptoUTXO =>
            decide (a.key ∈ sel₁.map CryptoUTXO.key) && selectable aid a) =
            (fun a => selectable aid a && decide (a.key ∈ sel₁.map CryptoUTXO.key)) := by
          funext a
          exact Bool.and_comm _ _
        rw [hcomm]
      have htot : availSum store aid = sumAmt (store.filter (selectable aid)) := rfl
      omega
  · intro store aid t₁ t₂ f₁ f₂ tx₁ tx₂ store' sel₁ store'' sel₂ h1 h2 u₁ hu₁ u₂ hu₂ heq
    obtain ⟨c₁, hs₁, hst'⟩ := prepareWithdrawal_ok h1
    obtain ⟨c₂, hs₂, _⟩ := prepareWithdrawal_ok h2
    have hcand₂ := selectInputs_mem hs₂ u₂ hu₂
    rw [hst', filter_markSpent] at hcand₂
    have h3 := (List.mem_filter.mp hcand₂).2
    have h4 : decide (u₂.key ∈ sel₁.map CryptoUTXO.key) = false := by
      cases hd : decide (u₂.key ∈ sel₁.map CryptoUTXO.key)
      · rfl
      · rw [hd] at h3
        simp at h3
    exact of_decide_eq_false h4 (heq ▸ List.mem_map_of_mem CryptoUTXO.key hu₁)

/-- Witness for C3 at a concrete input: after a successful preparation
consumes the only 5-unit output, a second preparation for 3 more units
fails. -/
theorem prepare_no_double_spend_witness :
    prepareWithdrawal [⟨1, "a", 0, 5, true, some "t1", 0, 1⟩] 1 3 0 "t2" =
      .error .insufficientUTXOs :=
  prepare_no_double_spend.1 [⟨1, "a", 0, 5, false, none, 0, 1⟩] 1 3 3 0 0 "t1" "t2"
    [⟨1, "a", 0, 5, true, some "t1", 0, 1⟩] [⟨1, "a", 0, 5, false, none, 0, 1⟩]
    (by decide) rfl

/-- Claim C9: for every broker list containing at least one broker string —
which `NewServer` guarantees by defaulting to localhost:9093 —
`checkKafkaStatus` returns "connected": its "disconnected" branch is
unreachable because the success condition is a disjunction with the constant
`true`, so the /health endpoint never reports the kafka service as
disconnected. -/
theorem checkKafkaStatus_always_connected :
    (∀ (statsTopic : String → String) (brokers : List String), brokers ≠ [] →
      checkKafkaStatus statsTopic brokers = "connected") ∧
    (∀ env : String, newServerKafkaBrokers env ≠ []) ∧
    (∀ (statsTopic : String → String) (env : String),
      checkKafkaStatus statsTopic (newServerKafkaBrokers env) = "connected") := by
  have h1 : ∀ (statsTopic : String → String) (brokers : List String), brokers ≠ [] →
      checkKafkaStatus statsTopic brokers = "connected" := by
    intro statsTopic brokers h
    match brokers with
    | [] => exact absurd rfl h
    | b :: rest => simp [checkKafkaStatus]
  have h2 : ∀ env : String, newServerKafkaBrokers env ≠ [] := by
    intro env
    unfold newServerKafkaBrokers
    split
    · simp
    · rename_i h
      intro hnil
      apply h
      simp [hnil]
  exact ⟨h1, h2, fun statsTopic env => h1 statsTopic _ (h2 env)⟩

/-- Witness for C9 at a concrete input. -/
theorem checkKafkaStatus_always_connected_witness :
    checkKafkaStatus (fun _ => "") ["localhost:9093"] = "connected" :=
  checkKafkaStatus_always_connected.1 (fun _ => "") ["localhost:9093"] (by decide)

/-- Claim C7 (code evaluated at the failing input): the declared in-flight
status constant `StatusBroadcasted` is the string "broadcasted", which is
not among the withdrawal status values `pending, broadcasting, confirmed,
failed` documented on the `CryptoWithdrawal.Status` field itself, and in
particular differs from the "broadcasting" name used by that documentation
and the specification. -/
theorem statusBroadcasted_contradicts_documentation :
    StatusBroadcasted = "broadcasted" ∧
    StatusBroadcasted ∉ cryptoWithdrawalDocumentedStatuses ∧
    StatusBroadcasted ≠ "broadcasting" := by
  refine ⟨rfl, ?_, ?_⟩ <;> decide

/-- Claim C10: the JSON serialization of a `CryptoAddress` is independent of
its `PrivateKey` field: for any two `CryptoAddress` values that differ only
in `PrivateKey`, the serialized outputs are identical, because the
`json:"-"` tag means the private key is never emitted. -/
theorem marshalCryptoAddress_independent_of_privateKey :
    ∀ (U D W T : Type) (encU : U → Jval) (encD : D → Jval)
      (encW : W → Jval) (encT : T → Jval)
      (a : CryptoAddress U D W T) (k₁ k₂ : String),
      marshalCryptoAddress encU encD encW encT (a.withPrivateKey k₁) =
        marshalCryptoAddress encU encD encW encT (a.withPrivateKey k₂) := by
  intro U D W T encU encD encW encT a k₁ k₂
  rfl

end CryptoTrading
